import Mathlib

/-!
Shallow embedding of the wordle-solver program (`src/main.rs`) and proofs
about its feedback classification, candidate partitioning, guess selection,
input parsing and session loop.
-/

namespace WordleSolver

/-- `type Word = [char; WORD_LEN]`: a word is a fixed-length sequence of
characters; embedded as a list of characters, with length hypotheses where a
statement depends on the fixed length. -/
abbrev Word := List Char

/-- `const WORD_LEN: usize = 5`. -/
def WORD_LEN : Nat := 5

/-- `const NUM_BUCKETS: usize = usize::pow(3, WORD_LEN)`. -/
def NUM_BUCKETS : Nat := 3 ^ WORD_LEN

/-- `const FIRST_GUESS: Word = ['r', 'a', 'i', 's', 'e']`. -/
def FIRST_GUESS : Word := ['r', 'a', 'i', 's', 'e']

/-- `Default::default()` for `[char; 5]`: five NUL characters. -/
def default_word : Word := List.replicate WORD_LEN (Char.ofNat 0)

/-- `string_to_word`: writes each character of the line into a
default-initialized fixed array.  Writing index `i ≥ WORD_LEN` is an
out-of-bounds panic (`none`); a shorter line leaves the NUL padding. -/
def string_to_word (s : List Char) : Option Word :=
  if s.length ≤ WORD_LEN then
    some (s ++ List.replicate (WORD_LEN - s.length) (Char.ofNat 0))
  else
    none

/-- `read_words`: converts every line of the vocabulary file with
`string_to_word`; a panic on any line aborts the whole load. -/
def read_words : List (List Char) → Option (List Word)
  | [] => some []
  | line :: rest =>
    match string_to_word line, read_words rest with
    | some w, some ws => some (w :: ws)
    | _, _ => none

/-- Loop body of `get_bucket`: walks the zipped (pattern, answer) pairs,
carrying the bag of remaining answer letters (the `HashBag<char>`, embedded
as a list used as a multiset via `count`/`erase`) and the accumulated
base-3 bucket. -/
def get_bucket_go : List (Char × Char) → List Char → Nat → Nat
  | [], _, bucket => bucket
  | (p, w) :: rest, letters, bucket =>
    if p = w then
      get_bucket_go rest (letters.erase p) (bucket * 3 + 2)
    else if 0 < letters.count p then
      get_bucket_go rest (letters.erase p) (bucket * 3 + 1)
    else
      get_bucket_go rest letters (bucket * 3)

/-- `get_bucket(pattern, answer)`: single left-to-right scan over the zipped
letters, starting from the multiset of all answer letters. -/
def get_bucket (pattern answer : Word) : Nat :=
  get_bucket_go (pattern.zip answer) answer 0

/-- `bucketize_answers`: the `NUM_BUCKETS`-slot bucket array, embedded as a
function from bucket index to its list of answers; each answer is pushed onto
the slot `get_bucket(pattern, answer)`. -/
def bucketize_answers (answers : List Word) (pattern : Word) : Nat → List Word :=
  answers.foldl
    (fun buckets answer => fun i =>
      if i = get_bucket pattern answer then buckets i ++ [answer] else buckets i)
    (fun _ => [])

/-- `bucket_counts`: the count-only variant of `bucketize_answers`. -/
def bucket_counts (answers : List Word) (pattern : Word) : Nat → Nat :=
  answers.foldl
    (fun counts answer => fun i =>
      if i = get_bucket pattern answer then counts i + 1 else counts i)
    (fun _ => 0)

/-- `bucket_counts(answers, pattern).into_iter().max().unwrap()`: the maximum
entry of the `NUM_BUCKETS`-slot count array. -/
def score (answers : List Word) (pattern : Word) : Nat :=
  ((List.range NUM_BUCKETS).map (bucket_counts answers pattern)).foldr max 0

/-- The adjusted score of a pattern in `get_best_pattern`: the maximum bucket
count, minus one when the pattern is itself a possible answer. -/
def adj_score (answers : List Word) (pattern : Word) : Nat :=
  if pattern ∈ answers then score answers pattern - 1 else score answers pattern

/-- Loop body of `get_best_pattern`: replace the current best
(pattern, score) pair only on a strictly smaller adjusted score. -/
def gbp_step (answers : List Word) (best : Word × Nat) (pattern : Word) : Word × Nat :=
  if adj_score answers pattern < best.2 then (pattern, adj_score answers pattern) else best

/-- `get_best_pattern(answers, guesses)`: scan the whole guess vocabulary,
starting from `(Default::default(), answers.len() + 1)`. -/
def get_best_pattern (answers guesses : List Word) : Word :=
  (guesses.foldl (gbp_step answers) (default_word, answers.length + 1)).1

/-- Loop body of `read_result`: each character shifts the bucket in base 3 and
adds its digit; any character outside `+`, `-`, `.` panics (`none`). -/
def read_result_go : List Char → Nat → Option Nat
  | [], bucket => some bucket
  | c :: rest, bucket =>
    if c = '+' then read_result_go rest (bucket * 3 + 2)
    else if c = '-' then read_result_go rest (bucket * 3 + 1)
    else if c = '.' then read_result_go rest (bucket * 3)
    else none

/-- `read_result`: parse one feedback line into a bucket index. -/
def read_result (line : List Char) : Option Nat := read_result_go line 0

/-- Outcome of one iteration of `main`'s loop after feedback is read. -/
inductive StepResult where
  | exhausted : StepResult
  | solved : Word → StepResult
  | active : List Word → Word → StepResult
  deriving DecidableEq

/-- One iteration of `main`'s loop: replace the candidate set wholesale by
`buckets[result]`; empty means "No words found", a single word is the answer,
otherwise pick the next pattern with `get_best_pattern`.  The bucket array is
embedded as a total function, so this models the loop body only for an
in-range `result`: in the source, `buckets[result]` with
`result ≥ NUM_BUCKETS` (reachable, since `read_result` does not validate the
length of its input line) is a bounds-check panic, not an empty bucket.
Statements about the loop therefore use in-range codes or carry a
`result < NUM_BUCKETS` hypothesis. -/
def session_step (guesses answers : List Word) (pattern : Word) (result : Nat) : StepResult :=
  let new := bucketize_answers answers pattern result
  if new.isEmpty then StepResult.exhausted
  else if new.length = 1 then StepResult.solved new.headI
  else StepResult.active new (get_best_pattern new guesses)

/-- The feedback classification algorithm exactly as the specification's
section 4.2 states it: first all exact matches are resolved and consumed from
the answer-letter multiset, in position order; only then are the remaining
positions scored as present-elsewhere (consuming from what is left of the
bag) or absent.  Used to compare the source's single-pass `get_bucket`
against the specified two-phase rule. -/
def classify_spec (guess answer : Word) : Nat :=
  let pairs := guess.zip answer
  let bag := pairs.foldl (fun bag pw => if pw.1 = pw.2 then bag.erase pw.1 else bag) answer
  (pairs.foldl
    (fun acc pw =>
      if pw.1 = pw.2 then (acc.1 * 3 + 2, acc.2)
      else if 0 < acc.2.count pw.1 then (acc.1 * 3 + 1, acc.2.erase pw.1)
      else (acc.1 * 3, acc.2))
    ((0 : Nat), bag)).1

/-- A concrete five-letter word used in witnesses. -/
def wordA : Word := ['a', 'a', 'a', 'a', 'a']

/-- A concrete five-letter word used in witnesses. -/
def wordB : Word := ['b', 'b', 'b', 'b', 'b']

/-- A concrete five-letter word used in witnesses. -/
def wordC : Word := ['c', 'c', 'c', 'c', 'c']

/-! ### Range and exactness lemmas for the classifier -/

lemma get_bucket_go_lt : ∀ (l : List (Char × Char)) (bag : List Char) (b : Nat),
    get_bucket_go l bag b < (b + 1) * 3 ^ l.length
  | [], bag, b => by simp [get_bucket_go]
  | (p, w) :: rest, bag, b => by
    have hpow : (b + 1) * 3 ^ (List.length ((p, w) :: rest)) =
        (b * 3 + 2 + 1) * 3 ^ rest.length := by
      rw [List.length_cons, pow_succ]; ring
    rw [hpow]
    simp only [get_bucket_go]
    split
    · exact get_bucket_go_lt rest (bag.erase p) (b * 3 + 2)
    · split
      · exact lt_of_lt_of_le (get_bucket_go_lt rest (bag.erase p) (b * 3 + 1))
          (Nat.mul_le_mul_right _ (by omega))
      · exact lt_of_lt_of_le (get_bucket_go_lt rest bag (b * 3))
          (Nat.mul_le_mul_right _ (by omega))

lemma get_bucket_go_self : ∀ (l : List (Char × Char)),
    (∀ pw ∈ l, pw.1 = pw.2) → ∀ (bag : List Char) (b : Nat),
    get_bucket_go l bag b = (b + 1) * 3 ^ l.length - 1
  | [], _, bag, b => by simp [get_bucket_go]
  | (p, w) :: rest, h, bag, b => by
    have hpw : p = w := h (p, w) (List.mem_cons_self _ _)
    have hrest : ∀ pw ∈ rest, pw.1 = pw.2 := fun pw hm => h pw (List.mem_cons_of_mem _ hm)
    have hpow : (b + 1) * 3 ^ (List.length ((p, w) :: rest)) =
        (b * 3 + 2 + 1) * 3 ^ rest.length := by
      rw [List.length_cons, pow_succ]; ring
    rw [hpow]
    simp only [get_bucket_go, if_pos hpw]
    exact get_bucket_go_self rest hrest (bag.erase p) (b * 3 + 2)

lemma get_bucket_go_eq_max : ∀ (l : List (Char × Char)) (bag : List Char) (b : Nat),
    get_bucket_go l bag b = (b + 1) * 3 ^ l.length - 1 → ∀ pw ∈ l, pw.1 = pw.2
  | [], _, _ => by intro _ pw hm; simp at hm
  | (p, w) :: rest, bag, b => by
    intro heq
    by_cases hpw : p = w
    · intro pw hm
      rcases List.mem_cons.mp hm with hh | ht
      · rw [hh]; exact hpw
      · have hpow : (b + 1) * 3 ^ (List.length ((p, w) :: rest)) =
            (b * 3 + 2 + 1) * 3 ^ rest.length := by
          rw [List.length_cons, pow_succ]; ring
        rw [hpow] at heq
        simp only [get_bucket_go, if_pos hpw] at heq
        exact get_bucket_go_eq_max rest (bag.erase p) (b * 3 + 2) heq pw ht
    · exfalso
      have hsplit : (b + 1) * 3 ^ (List.length ((p, w) :: rest)) =
          (b * 3 + 2) * 3 ^ rest.length + 3 ^ rest.length := by
        rw [List.length_cons, pow_succ]; ring
      have hone : 1 ≤ 3 ^ rest.length := Nat.one_le_pow _ _ (by norm_num)
      have hlt : get_bucket_go ((p, w) :: rest) bag b < (b * 3 + 2) * 3 ^ rest.length := by
        simp only [get_bucket_go, if_neg hpw]
        split
        · exact get_bucket_go_lt rest (bag.erase p) (b * 3 + 1)
        · exact lt_of_lt_of_le (get_bucket_go_lt rest bag (b * 3))
            (Nat.mul_le_mul_right _ (by omega))
      rw [hsplit] at heq
      generalize hA : (b * 3 + 2) * 3 ^ rest.length = A at heq hlt
      generalize hM : 3 ^ rest.length = M at heq hone
      omega

lemma zip_self_fst_eq_snd : ∀ (l : List Char), ∀ pw ∈ l.zip l, pw.1 = pw.2
  | [] => by simp
  | c :: l => by
    intro pw hpw
    rw [List.zip_cons_cons] at hpw
    rcases List.mem_cons.mp hpw with hh | ht
    · rw [hh]
    · exact zip_self_fst_eq_snd l pw ht

lemma eq_of_zip_forall_eq : ∀ (g c : List Char), g.length = c.length →
    (∀ pw ∈ g.zip c, pw.1 = pw.2) → g = c
  | [], [], _, _ => rfl
  | [], _ :: _, h, _ => by simp at h
  | _ :: _, [], h, _ => by simp at h
  | g :: gs, c :: cs, h, hall => by
    have h1 : g = c := hall (g, c) (by rw [List.zip_cons_cons]; exact List.mem_cons_self _ _)
    have h2 : gs = cs := by
      refine eq_of_zip_forall_eq gs cs (by simpa using h) ?_
      intro pw hpw
      exact hall pw (by rw [List.zip_cons_cons]; exact List.mem_cons_of_mem _ hpw)
    rw [h1, h2]

/-- For words of the fixed length, every bucket index is in range. -/
lemma get_bucket_lt (pattern answer : Word)
    (hp : pattern.length = WORD_LEN) (ha : answer.length = WORD_LEN) :
    get_bucket pattern answer < NUM_BUCKETS := by
  have h := get_bucket_go_lt (pattern.zip answer) answer 0
  rw [List.length_zip, hp, ha] at h
  simpa [NUM_BUCKETS] using h

/-- Classifying a word against itself yields the all-exact bucket. -/
lemma get_bucket_self (a : Word) (ha : a.length = WORD_LEN) :
    get_bucket a a = NUM_BUCKETS - 1 := by
  have h := get_bucket_go_self (a.zip a) (zip_self_fst_eq_snd a) a 0
  rw [List.length_zip, ha] at h
  simpa [get_bucket, NUM_BUCKETS] using h

/-- The all-exact bucket arises only from the guess itself. -/
lemma get_bucket_eq_max_iff (g c : Word)
    (hg : g.length = WORD_LEN) (hc : c.length = WORD_LEN) :
    get_bucket g c = NUM_BUCKETS - 1 ↔ c = g := by
  constructor
  · intro h
    have hlen : (g.zip c).length = WORD_LEN := by rw [List.length_zip, hg, hc]; simp
    have h' : get_bucket_go (g.zip c) c 0 = (0 + 1) * 3 ^ (g.zip c).length - 1 := by
      rw [hlen]
      simpa [get_bucket, NUM_BUCKETS] using h
    exact (eq_of_zip_forall_eq g c (hg.trans hc.symm)
      (get_bucket_go_eq_max (g.zip c) c 0 h')).symm
  · intro h
    rw [h]
    exact get_bucket_self g hg

/-! ### Partition and count lemmas -/

lemma bucketize_foldl (pattern : Word) : ∀ (l : List Word) (acc : Nat → List Word) (c : Nat),
    (l.foldl (fun buckets answer => fun i =>
        if i = get_bucket pattern answer then buckets i ++ [answer] else buckets i) acc) c
      = acc c ++ l.filter (fun a => get_bucket pattern a = c)
  | [], acc, c => by simp
  | a :: l, acc, c => by
    rw [List.foldl_cons, bucketize_foldl pattern l _ c, List.filter_cons]
    by_cases h : get_bucket pattern a = c
    · simp [h, List.append_assoc]
    · simp [h]
      exact fun hc => h hc.symm

lemma counts_foldl (pattern : Word) : ∀ (l : List Word) (acc : Nat → Nat) (c : Nat),
    (l.foldl (fun counts answer => fun i =>
        if i = get_bucket pattern answer then counts i + 1 else counts i) acc) c
      = acc c + l.countP (fun a => get_bucket pattern a = c)
  | [], acc, c => by simp
  | a :: l, acc, c => by
    rw [List.foldl_cons, counts_foldl pattern l _ c, List.countP_cons]
    by_cases h : get_bucket pattern a = c
    · simp [h]; omega
    · simp [h]
      exact fun hc => h hc.symm

lemma bucketize_eq_filter (answers : List Word) (pattern : Word) (c : Nat) :
    bucketize_answers answers pattern c
      = answers.filter (fun a => get_bucket pattern a = c) := by
  have h := bucketize_foldl pattern answers (fun _ => []) c
  simpa [bucketize_answers] using h

lemma bucket_counts_eq_countP (answers : List Word) (pattern : Word) (c : Nat) :
    bucket_counts answers pattern c
      = answers.countP (fun a => get_bucket pattern a = c) := by
  have h := counts_foldl pattern answers (fun _ => 0) c
  simpa [bucket_counts] using h

/-! ### Score lemmas -/

lemma le_foldr_max : ∀ (l : List Nat), ∀ x ∈ l, x ≤ l.foldr max 0
  | [] => by simp
  | a :: l => by
    intro x hx
    rcases List.mem_cons.mp hx with h | h
    · rw [List.foldr_cons, h]; exact le_max_left _ _
    · exact le_trans (le_foldr_max l x h) (le_max_right _ _)

lemma foldr_max_le : ∀ (l : List Nat) (b : Nat), (∀ x ∈ l, x ≤ b) → l.foldr max 0 ≤ b
  | [], _, _ => by simp
  | a :: l, b, h => by
    rw [List.foldr_cons]
    exact max_le (h a (List.mem_cons_self _ _))
      (foldr_max_le l b (fun x hx => h x (List.mem_cons_of_mem _ hx)))

lemma counts_le_score (answers : List Word) (pattern : Word) (c : Nat)
    (hc : c < NUM_BUCKETS) :
    bucket_counts answers pattern c ≤ score answers pattern :=
  le_foldr_max _ _ (List.mem_map_of_mem _ (List.mem_range.mpr hc))

lemma score_le_length (answers : List Word) (pattern : Word) :
    score answers pattern ≤ answers.length := by
  apply foldr_max_le
  intro x hx
  rcases List.mem_map.mp hx with ⟨c, _, rfl⟩
  rw [bucket_counts_eq_countP]
  exact List.countP_le_length _

lemma adj_score_le_score (answers : List Word) (pattern : Word) :
    adj_score answers pattern ≤ score answers pattern := by
  unfold adj_score
  split <;> omega

lemma score_pos (answers : List Word) (pattern : Word)
    (hlen : pattern.length = WORD_LEN) (hmem : pattern ∈ answers) :
    1 ≤ score answers pattern := by
  have hself : get_bucket pattern pattern = NUM_BUCKETS - 1 := get_bucket_self pattern hlen
  have hc : NUM_BUCKETS - 1 < NUM_BUCKETS := by norm_num [NUM_BUCKETS, WORD_LEN]
  refine le_trans ?_ (counts_le_score answers pattern (NUM_BUCKETS - 1) hc)
  rw [bucket_counts_eq_countP]
  have hpos : 0 < answers.countP (fun a => get_bucket pattern a = NUM_BUCKETS - 1) :=
    List.countP_pos_iff.mpr ⟨pattern, hmem, by simp [hself]⟩
  omega

/-! ### Guess-optimizer fold lemma -/

lemma gbp_foldl (answers : List Word) : ∀ (l : List Word) (b : Word) (s : Nat),
    (l.foldl (gbp_step answers) (b, s) = (b, s) ∧ ∀ g ∈ l, s ≤ adj_score answers g)
    ∨ (∃ l₁ r l₂, l = l₁ ++ r :: l₂
        ∧ l.foldl (gbp_step answers) (b, s) = (r, adj_score answers r)
        ∧ adj_score answers r < s
        ∧ (∀ g ∈ l₁, adj_score answers r < adj_score answers g)
        ∧ (∀ g ∈ l₂, adj_score answers r ≤ adj_score answers g))
  | [], b, s => Or.inl ⟨rfl, by simp⟩
  | p :: l, b, s => by
    rw [List.foldl_cons]
    by_cases hp : adj_score answers p < s
    · have hstep : gbp_step answers (b, s) p = (p, adj_score answers p) := by
        simp [gbp_step, hp]
      rw [hstep]
      rcases gbp_foldl answers l p (adj_score answers p) with
        ⟨heq, hall⟩ | ⟨l₁, r, l₂, hsplit, heq, hlt, h1, h2⟩
      · exact Or.inr ⟨[], p, l, by simp, heq, hp, by simp, hall⟩
      · refine Or.inr ⟨p :: l₁, r, l₂, by simp [hsplit], heq, lt_trans hlt hp, ?_, h2⟩
        intro g hg
        rcases List.mem_cons.mp hg with h | h
        · rw [h]; exact hlt
        · exact h1 g h
    · have hstep : gbp_step answers (b, s) p = (b, s) := by
        simp [gbp_step, hp]
      rw [hstep]
      rcases gbp_foldl answers l b s with
        ⟨heq, hall⟩ | ⟨l₁, r, l₂, hsplit, heq, hlt, h1, h2⟩
      · refine Or.inl ⟨heq, ?_⟩
        intro g hg
        rcases List.mem_cons.mp hg with h | h
        · rw [h]; omega
        · exact hall g h
      · refine Or.inr ⟨p :: l₁, r, l₂, by simp [hsplit], heq, hlt, ?_, h2⟩
        intro g hg
        rcases List.mem_cons.mp hg with h | h
        · rw [h]; omega
        · exact h1 g h

/-! ### Filtering a duplicate-free list down to one member -/

lemma filter_eq_singleton_of_nodup : ∀ (l : List Word) (g : Word),
    l.Nodup → g ∈ l → l.filter (fun x => x = g) = [g]
  | [], g, _, hmem => by simp at hmem
  | a :: l, g, hnd, hmem => by
    rcases List.nodup_cons.mp hnd with ⟨hna, hndl⟩
    by_cases hag : a = g
    · have hgl : g ∉ l := by rw [← hag]; exact hna
      have hfl : l.filter (fun x => x = g) = [] := by
        rw [List.filter_eq_nil_iff]
        intro x hx
        simp only [decide_eq_true_eq]
        exact fun hxg => hgl (hxg ▸ hx)
      rw [List.filter_cons, if_pos (by simp [hag]), hfl, hag]
    · have hgl : g ∈ l := by
        rcases List.mem_cons.mp hmem with h | h
        · exact absurd h.symm hag
        · exact h
      rw [List.filter_cons, if_neg (by simp [hag]),
        filter_eq_singleton_of_nodup l g hndl hgl]

/-! ### Input-parsing lemmas -/

lemma read_result_go_lt : ∀ (l : List Char) (b n : Nat),
    read_result_go l b = some n → n < (b + 1) * 3 ^ l.length
  | [], b, n => by
    intro h
    simp only [read_result_go, Option.some.injEq] at h
    simp [← h]
  | c :: l, b, n => by
    intro h
    simp only [read_result_go] at h
    have hpow : (b + 1) * 3 ^ (List.length (c :: l)) =
        (b * 3 + 2 + 1) * 3 ^ l.length := by
      rw [List.length_cons, pow_succ]; ring
    rw [hpow]
    split at h
    · exact read_result_go_lt l (b * 3 + 2) n h
    · split at h
      · exact lt_of_lt_of_le (read_result_go_lt l (b * 3 + 1) n h)
          (Nat.mul_le_mul_right _ (by omega))
      · split at h
        · exact lt_of_lt_of_le (read_result_go_lt l (b * 3) n h)
            (Nat.mul_le_mul_right _ (by omega))
        · exact absurd h (by simp)

lemma read_result_go_none_iff : ∀ (l : List Char) (b : Nat),
    read_result_go l b = none ↔ ∃ c ∈ l, c ≠ '+' ∧ c ≠ '-' ∧ c ≠ '.'
  | [], b => by simp [read_result_go]
  | c :: l, b => by
    simp only [read_result_go]
    by_cases h1 : c = '+'
    · rw [if_pos h1, read_result_go_none_iff l (b * 3 + 2)]
      constructor
      · rintro ⟨d, hd, hne⟩
        exact ⟨d, List.mem_cons_of_mem _ hd, hne⟩
      · rintro ⟨d, hd, hne⟩
        rcases List.mem_cons.mp hd with h | h
        · exact absurd (h ▸ h1) hne.1
        · exact ⟨d, h, hne⟩
    · rw [if_neg h1]
      by_cases h2 : c = '-'
      · rw [if_pos h2, read_result_go_none_iff l (b * 3 + 1)]
        constructor
        · rintro ⟨d, hd, hne⟩
          exact ⟨d, List.mem_cons_of_mem _ hd, hne⟩
        · rintro ⟨d, hd, hne⟩
          rcases List.mem_cons.mp hd with h | h
          · exact absurd (h ▸ h2) hne.2.1
          · exact ⟨d, h, hne⟩
      · rw [if_neg h2]
        by_cases h3 : c = '.'
        · rw [if_pos h3, read_result_go_none_iff l (b * 3)]
          constructor
          · rintro ⟨d, hd, hne⟩
            exact ⟨d, List.mem_cons_of_mem _ hd, hne⟩
          · rintro ⟨d, hd, hne⟩
            rcases List.mem_cons.mp hd with h | h
            · exact absurd (h ▸ h3) hne.2.2
            · exact ⟨d, h, hne⟩
        · rw [if_neg h3]
          simp only [true_iff]
          exact ⟨c, List.mem_cons_self _ _, h1, h2, h3⟩

lemma read_words_none_iff : ∀ (lines : List (List Char)),
    read_words lines = none ↔ ∃ l ∈ lines, WORD_LEN < l.length
  | [] => by simp [read_words]
  | line :: rest => by
    simp only [read_words]
    by_cases hl : line.length ≤ WORD_LEN
    · have hw : string_to_word line =
          some (line ++ List.replicate (WORD_LEN - line.length) (Char.ofNat 0)) := by
        rw [string_to_word, if_pos hl]
      rw [hw]
      by_cases hr : read_words rest = none
      · rw [hr]
        simp only [true_iff]
        rcases (read_words_none_iff rest).mp hr with ⟨l, hml, hlen⟩
        exact ⟨l, List.mem_cons_of_mem _ hml, hlen⟩
      · rcases Option.ne_none_iff_exists'.mp hr with ⟨ws, hws⟩
        rw [hws]
        simp only [reduceCtorEq, false_iff, not_exists]
        rintro l ⟨hml, hlen⟩
        rcases List.mem_cons.mp hml with h | h
        · rw [h] at hlen; omega
        · exact hr ((read_words_none_iff rest).mpr ⟨l, h, hlen⟩)
    · have hw : string_to_word line = none := by
        rw [string_to_word, if_neg hl]
      rw [hw]
      simp only [true_iff]
      exact ⟨line, List.mem_cons_self _ _, by omega⟩

/-! ### Session-step lemmas -/

lemma session_step_active (guesses answers : List Word) (pattern next : Word)
    (result : Nat) (new : List Word)
    (h : session_step guesses answers pattern result = StepResult.active new next) :
    new = bucketize_answers answers pattern result := by
  simp only [session_step] at h
  split at h
  · exact absurd h (by simp)
  · split at h
    · exact absurd h (by simp)
    · injection h with h1 h2
      exact h1.symm

/-! ### Claim theorems -/

/-- Claim C1 (code bug): `get_bucket` does not implement the specified
algorithm in which all exact matches are resolved and consumed from the
answer-letter multiset before any out-of-place match is considered.  Its
single left-to-right pass lets the out-of-place `e` at position 0 of the
guess "ebcde" consume the only `e` of the answer "abcde" before the exact
match at position 4 is reached, yielding digits 1,2,2,2,2 (code 161), while
the specified exact-first rule yields digits 0,2,2,2,2 (code 80). -/
theorem get_bucket_single_pass_divergence :
    get_bucket ['e', 'b', 'c', 'd', 'e'] ['a', 'b', 'c', 'd', 'e'] = 161
    ∧ classify_spec ['e', 'b', 'c', 'd', 'e'] ['a', 'b', 'c', 'd', 'e'] = 80
    ∧ get_bucket ['e', 'b', 'c', 'd', 'e'] ['a', 'b', 'c', 'd', 'e']
        ≠ classify_spec ['e', 'b', 'c', 'd', 'e'] ['a', 'b', 'c', 'd', 'e'] :=
  ⟨by decide, by decide, by decide⟩

/-- Claim C2: for a nonempty guess vocabulary, `get_best_pattern` returns a
vocabulary member whose adjusted score (maximum bucket count, minus one when
the guess is itself a candidate) is at most the adjusted score of every
vocabulary member, and on exact ties the earlier member of the iteration
order wins: every member strictly before the returned one has a strictly
larger adjusted score. -/
theorem get_best_pattern_minimal (answers guesses : List Word) (h : guesses ≠ []) :
    ∃ l₁ l₂, guesses = l₁ ++ get_best_pattern answers guesses :: l₂
      ∧ (∀ g ∈ l₁,
          adj_score answers (get_best_pattern answers guesses) < adj_score answers g)
      ∧ ∀ g ∈ guesses,
          adj_score answers (get_best_pattern answers guesses) ≤ adj_score answers g := by
  rcases gbp_foldl answers guesses default_word (answers.length + 1) with
    ⟨heq, hall⟩ | ⟨l₁, r, l₂, hsplit, heq, hlt, h1, h2⟩
  · exfalso
    rcases List.exists_mem_of_ne_nil guesses h with ⟨g, hg⟩
    have ha := hall g hg
    have hb : adj_score answers g ≤ answers.length :=
      le_trans (adj_score_le_score answers g) (score_le_length answers g)
    omega
  · have hr : get_best_pattern answers guesses = r := by
      rw [get_best_pattern, heq]
    rw [hr]
    refine ⟨l₁, l₂, hsplit, h1, ?_⟩
    intro g hg
    rw [hsplit] at hg
    rcases List.mem_append.mp hg with hm | hm
    · exact le_of_lt (h1 g hm)
    · rcases List.mem_cons.mp hm with hm | hm
      · rw [hm]
      · exact h2 g hm

/-- Witness for C2 at a concrete vocabulary. -/
theorem get_best_pattern_minimal_witness :
    (([wordB] : List Word) ≠ [])
    ∧ ∃ l₁ l₂, ([wordB] : List Word) = l₁ ++ get_best_pattern [] [wordB] :: l₂
      ∧ (∀ g ∈ l₁, adj_score [] (get_best_pattern [] [wordB]) < adj_score [] g)
      ∧ ∀ g ∈ [wordB], adj_score [] (get_best_pattern [] [wordB]) ≤ adj_score [] g :=
  ⟨by decide, get_best_pattern_minimal [] [wordB] (by decide)⟩

/-- Claim C3: `bucketize_answers` partitions the candidates exactly: the
group at each code is the sub-list of candidates classifying to that code,
in input order, and every candidate lies in exactly the group indexed by its
own bucket. -/
theorem bucketize_partition (answers : List Word) (pattern : Word) :
    (∀ code, bucketize_answers answers pattern code
        = answers.filter (fun a => get_bucket pattern a = code))
    ∧ ∀ a ∈ answers, ∀ code,
        a ∈ bucketize_answers answers pattern code ↔ get_bucket pattern a = code := by
  refine ⟨fun code => bucketize_eq_filter answers pattern code, ?_⟩
  intro a ha code
  rw [bucketize_eq_filter, List.mem_filter]
  simp [ha]

/-- Witness for C3 at a concrete candidate list. -/
theorem bucketize_partition_witness :
    bucketize_answers [wordA] wordA (get_bucket wordA wordA)
      = [wordA].filter (fun a => get_bucket wordA a = get_bucket wordA wordA)
    ∧ (wordA ∈ bucketize_answers [wordA] wordA (get_bucket wordA wordA)
        ↔ get_bucket wordA wordA = get_bucket wordA wordA) :=
  ⟨(bucketize_partition [wordA] wordA).1 (get_bucket wordA wordA),
    (bucketize_partition [wordA] wordA).2 wordA (by decide) (get_bucket wordA wordA)⟩

/-- Claim C4 (counterexample): `read_result` performs no length validation.
The one-character line "+" is accepted as code 2 instead of failing, and the
six-character line "++++++" is accepted as code 728, which is outside
`[0, NUM_BUCKETS)`. -/
theorem read_result_wrong_length_accepted :
    read_result ['+'] = some 2
    ∧ (['+'] : List Char).length ≠ WORD_LEN
    ∧ read_result ['+', '+', '+', '+', '+', '+'] = some 728
    ∧ ¬ 728 < NUM_BUCKETS :=
  ⟨by decide, by decide, by decide, by decide⟩

/-- Claim C4 (amended): `read_result` fails exactly when the line contains a
character outside `+`, `-`, `.`; it does not check the length, and a
returned code is only bounded by `3 ^ length(line)`. -/
theorem read_result_no_length_validation (line : List Char) :
    (read_result line = none ↔ ∃ c ∈ line, c ≠ '+' ∧ c ≠ '-' ∧ c ≠ '.')
    ∧ ∀ n, read_result line = some n → n < 3 ^ line.length := by
  refine ⟨read_result_go_none_iff line 0, ?_⟩
  intro n hn
  have h := read_result_go_lt line 0 n hn
  simpa using h

/-- Witness for the amended C4 at a concrete line. -/
theorem read_result_no_length_validation_witness :
    read_result ['-'] = some 1 ∧ 1 < 3 ^ (['-'] : List Char).length :=
  ⟨by decide, (read_result_no_length_validation ['-']).2 1 (by decide)⟩

/-- Claim C5: classifying a word against itself gives the all-exact code
`NUM_BUCKETS - 1`, that code arises only from the guess itself, the feedback
line "+++++" parses to it, and filtering a duplicate-free candidate set that
contains the current guess through that bucket leaves exactly the guess, so
the session step reports it solved. -/
theorem classify_all_exact (a g c : Word) (answers : List Word)
    (ha : a.length = WORD_LEN) (hg : g.length = WORD_LEN) (hc : c.length = WORD_LEN)
    (hansl : ∀ w ∈ answers, w.length = WORD_LEN) (hnd : answers.Nodup)
    (hmem : g ∈ answers) :
    get_bucket a a = NUM_BUCKETS - 1
    ∧ (get_bucket g c = NUM_BUCKETS - 1 ↔ c = g)
    ∧ read_result (List.replicate WORD_LEN '+') = some (NUM_BUCKETS - 1)
    ∧ bucketize_answers answers g (NUM_BUCKETS - 1) = [g]
    ∧ session_step answers answers g (NUM_BUCKETS - 1) = StepResult.solved g := by
  have h4 : bucketize_answers answers g (NUM_BUCKETS - 1) = [g] := by
    rw [bucketize_eq_filter]
    have hcong : ∀ x ∈ answers,
        (decide (get_bucket g x = NUM_BUCKETS - 1)) = (decide (x = g)) := by
      intro x hx
      exact decide_eq_decide.mpr (get_bucket_eq_max_iff g x hg (hansl x hx))
    rw [List.filter_congr hcong]
    exact filter_eq_singleton_of_nodup answers g hnd hmem
  refine ⟨get_bucket_self a ha, get_bucket_eq_max_iff g c hg hc, by decide, h4, ?_⟩
  simp only [session_step, h4]
  simp

/-- Witness for C5 at a concrete candidate set. -/
theorem classify_all_exact_witness :
    (∀ w ∈ ([FIRST_GUESS] : List Word), w.length = WORD_LEN)
    ∧ ([FIRST_GUESS] : List Word).Nodup
    ∧ FIRST_GUESS ∈ [FIRST_GUESS]
    ∧ (get_bucket FIRST_GUESS FIRST_GUESS = NUM_BUCKETS - 1
      ∧ (get_bucket FIRST_GUESS FIRST_GUESS = NUM_BUCKETS - 1 ↔ FIRST_GUESS = FIRST_GUESS)
      ∧ read_result (List.replicate WORD_LEN '+') = some (NUM_BUCKETS - 1)
      ∧ bucketize_answers [FIRST_GUESS] FIRST_GUESS (NUM_BUCKETS - 1) = [FIRST_GUESS]
      ∧ session_step [FIRST_GUESS] [FIRST_GUESS] FIRST_GUESS (NUM_BUCKETS - 1)
          = StepResult.solved FIRST_GUESS) :=
  ⟨by decide, by decide, by decide,
    classify_all_exact FIRST_GUESS FIRST_GUESS FIRST_GUESS [FIRST_GUESS]
      (by decide) (by decide) (by decide) (by decide) (by decide) (by decide)⟩

/-- Claim C6: the counting partitioner agrees with the grouping partitioner
at every code. -/
theorem bucket_counts_agree (answers : List Word) (pattern : Word) (code : Nat) :
    bucket_counts answers pattern code = (bucketize_answers answers pattern code).length := by
  rw [bucket_counts_eq_countP, bucketize_eq_filter, List.countP_eq_length_filter]

/-- Claim C7: for words of the fixed length, `get_bucket` always returns a
code in `[0, NUM_BUCKETS)`, so the bucket-array indexing in
`bucketize_answers` and `bucket_counts` is always in bounds. -/
theorem get_bucket_in_range (pattern answer : Word)
    (hp : pattern.length = WORD_LEN) (ha : answer.length = WORD_LEN) :
    get_bucket pattern answer < NUM_BUCKETS :=
  get_bucket_lt pattern answer hp ha

/-- Witness for C7 at concrete words. -/
theorem get_bucket_in_range_witness :
    wordA.length = WORD_LEN ∧ get_bucket wordA wordB < NUM_BUCKETS :=
  ⟨by decide, get_bucket_in_range wordA wordB (by decide) (by decide)⟩

/-- Claim C8 (counterexample): an empty vocabulary file is not a load
failure; `read_words` returns the empty vocabulary, and a two-character line
is silently padded with NUL characters instead of being rejected. -/
theorem read_words_empty_not_failure :
    read_words [] = some []
    ∧ read_words [['a', 'b']]
        = some [['a', 'b', Char.ofNat 0, Char.ofNat 0, Char.ofNat 0]] :=
  ⟨by decide, by decide⟩

/-- Claim C8 (amended): loading the vocabulary fails exactly when some line
is longer than `WORD_LEN`; an empty file loads as the empty vocabulary,
shorter lines are padded with NUL characters, and with zero candidates the
interactive loop still runs a round, ending — for any in-range observed
code, where the `buckets[result]` indexing does not panic — in the
exhausted outcome. -/
theorem read_words_no_empty_check (lines : List (List Char)) (guesses : List Word)
    (p : Word) (r : Nat) :
    read_words [] = some []
    ∧ (read_words lines = none ↔ ∃ l ∈ lines, WORD_LEN < l.length)
    ∧ (∀ s : List Char, s.length ≤ WORD_LEN →
        string_to_word s = some (s ++ List.replicate (WORD_LEN - s.length) (Char.ofNat 0)))
    ∧ (r < NUM_BUCKETS → session_step guesses [] p r = StepResult.exhausted) := by
  refine ⟨rfl, read_words_none_iff lines, ?_, fun _ => rfl⟩
  intro s hs
  rw [string_to_word, if_pos hs]

/-- Witness for the amended C8 at concrete input. -/
theorem read_words_no_empty_check_witness :
    read_words [] = some []
    ∧ string_to_word ['a']
        = some (['a'] ++ List.replicate (WORD_LEN - (['a'] : List Char).length) (Char.ofNat 0))
    ∧ session_step [] [] wordA 0 = StepResult.exhausted :=
  ⟨(read_words_no_empty_check [] [] wordA 0).1,
    (read_words_no_empty_check [] [] wordA 0).2.2.1 ['a'] (by decide),
    (read_words_no_empty_check [] [] wordA 0).2.2.2 (by decide)⟩

/-- Claim C9: whenever a round leaves the session active, the new candidate
set produced by full replacement with `buckets[result]` is an
order-preserving sub-list of the previous candidate set, so the candidate
set shrinks monotonically and never grows. -/
theorem session_candidates_shrink (guesses answers : List Word) (pattern next : Word)
    (result : Nat) (new : List Word)
    (h : session_step guesses answers pattern result = StepResult.active new next) :
    new.Sublist answers ∧ new.length ≤ answers.length := by
  have hb : new = bucketize_answers answers pattern result :=
    session_step_active guesses answers pattern next result new h
  have hsub : new.Sublist answers := by
    rw [hb, bucketize_eq_filter]
    exact List.filter_sublist _
  exact ⟨hsub, hsub.length_le⟩

/-- Witness for C9 at a concrete round. -/
theorem session_candidates_shrink_witness :
    session_step [] [wordB, wordC] wordA 0 = StepResult.active [wordB, wordC] default_word
    ∧ (List.Sublist [wordB, wordC] [wordB, wordC]
        ∧ ([wordB, wordC] : List Word).length ≤ ([wordB, wordC] : List Word).length) :=
  ⟨by decide,
    session_candidates_shrink [] [wordB, wordC] wordA default_word 0 [wordB, wordC] (by decide)⟩

/-- Claim C10: when the pattern under consideration is itself one of the
candidates, the maximum bucket count is at least one, so the tie-break
subtraction in `get_best_pattern` never underflows: the adjusted score plus
one recovers the raw score. -/
theorem gbp_subtraction_safe (answers : List Word) (pattern : Word)
    (hlen : pattern.length = WORD_LEN) (hmem : pattern ∈ answers) :
    1 ≤ score answers pattern ∧ adj_score answers pattern + 1 = score answers pattern := by
  have h1 := score_pos answers pattern hlen hmem
  refine ⟨h1, ?_⟩
  rw [adj_score, if_pos hmem]
  omega

/-- Witness for C10 at a concrete candidate list. -/
theorem gbp_subtraction_safe_witness :
    wordA.length = WORD_LEN ∧ wordA ∈ [wordA]
    ∧ (1 ≤ score [wordA] wordA ∧ adj_score [wordA] wordA + 1 = score [wordA] wordA) :=
  ⟨by decide, by decide, gbp_subtraction_safe [wordA] wordA (by decide) (by decide)⟩

end WordleSolver
